import Mathlib

/-!
Verification of the movie recommender core (`project.py`): a from-scratch
TF-IDF vectorizer with cosine similarity, a content-based recommender over
genre text, and a user-based collaborative filter with Pearson correlation.

Python dictionaries are embedded as insertion-ordered association lists,
Python sets as first-occurrence-deduplicated lists, floating point as `ℝ`
(ratings, which are exact decimals, as `ℚ`), and `float('nan')` results of
`np.corrcoef` as `Option ℝ`.
-/

/-- First-occurrence deduplication with an accumulator of already-seen
elements: the embedding of iterating a Python `set` built from a list
(element order fixed to first occurrence; only membership and size are
ever consumed, so the order choice is immaterial). -/
def dedupAux {α : Type} [DecidableEq α] (seen : List α) : List α → List α
  | [] => []
  | x :: xs => if x ∈ seen then dedupAux seen xs else x :: dedupAux (x :: seen) xs

/-- Distinct elements of a list, first occurrence first: `set(l)`. -/
def firstDedup {α : Type} [DecidableEq α] (l : List α) : List α :=
  dedupAux [] l

/-- One `+= 1` update of a `Counter`/`defaultdict(int)`: bump the count of
key `t`, appending a fresh entry at the end when `t` is absent (Python
dicts preserve insertion order). -/
def bumpTerm : List (String × Nat) → String → List (String × Nat)
  | [], t => [(t, 1)]
  | (t', c) :: rest, t =>
      if t' = t then (t', c + 1) :: rest else (t', c) :: bumpTerm rest t

/-- `Counter(tokens)`: counts with keys in first-occurrence order. -/
def counterOf (tokens : List String) : List (String × Nat) :=
  tokens.foldl bumpTerm []

/-- The `term_doc_freq` defaultdict of `compute_tfidf`: for every document,
for every distinct term of that document, bump the term's count. -/
def term_doc_freq (doc_tokens : List (List String)) : List (String × Nat) :=
  doc_tokens.foldl (fun d tokens => (firstDedup tokens).foldl bumpTerm d) []

/-- Lookup in a `defaultdict(int)`: 0 when the key is absent. -/
def dfLookup (d : List (String × Nat)) (t : String) : Nat :=
  ((d.find? (fun p => p.1 == t)).map (fun p => p.2)).getD 0

/-- Accumulator-based whitespace splitter (current word held reversed). -/
def splitWsAux : List Char → List Char → List String
  | [], cur => if cur = [] then [] else [String.mk cur.reverse]
  | c :: rest, cur =>
      if c.isWhitespace then
        if cur = [] then splitWsAux rest []
        else String.mk cur.reverse :: splitWsAux rest []
      else splitWsAux rest (c :: cur)

/-- Python `str.split()` with no argument: split on whitespace runs,
dropping empty tokens. -/
def tokenize (s : String) : List String :=
  splitWsAux s.data []

/-- TF-IDF vectors of a document list (`compute_tfidf` in `project.py`):
tokenize each document by whitespace, build document frequencies, and map
each document's term counter to `tf * ln(n_docs / (1 + df))`. Keys are the
document's distinct terms in first-occurrence order, exactly as iterating
`Counter(tokens).items()` does. -/
noncomputable def compute_tfidf (documents : List String) : List (List (String × ℝ)) :=
  let doc_tokens := documents.map tokenize
  let tdf := term_doc_freq doc_tokens
  let n_docs := documents.length
  doc_tokens.map (fun tokens =>
    (counterOf tokens).map (fun p =>
      (p.1, (p.2 : ℝ) * Real.log ((n_docs : ℝ) / (1 + (dfLookup tdf p.1 : ℝ))))))

/-- Lookup of a term's weight in a TF-IDF vector (Python `dict` access). -/
def vecLookup (v : List (String × ℝ)) (t : String) : Option ℝ :=
  (v.find? (fun p => p.1 == t)).map (fun p => p.2)

/-- The idf factor `ln(n_docs / (1 + term_doc_freq[term]))` a corpus
assigns to a term. -/
noncomputable def idfOf (docs : List String) (t : String) : ℝ :=
  Real.log ((docs.length : ℝ) /
    (1 + (dfLookup (term_doc_freq (docs.map tokenize)) t : ℝ)))

/-- Cosine similarity of two sparse vectors (`cosine_similarity` in
`project.py`): 0 on an empty key intersection, else the dot product over
the common keys divided by the product of the full L2 magnitudes, with 0
returned when either magnitude is 0. -/
noncomputable def cosine_similarity (vec1 vec2 : List (String × ℝ)) : ℝ :=
  let common := vec1.filter (fun p => vec2.any (fun q => q.1 == p.1))
  if common.isEmpty then 0
  else
    let dot := (common.map (fun p => p.2 * ((vecLookup vec2 p.1).getD 0))).sum
    let mag1 := Real.sqrt ((vec1.map (fun p => p.2 ^ 2)).sum)
    let mag2 := Real.sqrt ((vec2.map (fun p => p.2 ^ 2)).sum)
    if mag1 = 0 ∨ mag2 = 0 then 0 else dot / (mag1 * mag2)

/-- Lower-case a string character by character (Python `str.lower()`,
restricted to the ASCII mapping of `Char.toLower`). -/
def lowerStr (s : String) : String :=
  String.mk (s.data.map Char.toLower)

/-- Does the second list start with the first one? -/
def leadsWith [DecidableEq α] : List α → List α → Bool
  | [], _ => true
  | _ :: _, [] => false
  | a :: as, b :: bs => a = b && leadsWith as bs

/-- Does `needle` occur as a contiguous sublist of `hay`? -/
def containsSub [DecidableEq α] (needle : List α) : List α → Bool
  | [] => leadsWith needle []
  | c :: rest => leadsWith needle (c :: rest) || containsSub needle rest

/-- Python's `needle in hay` on strings: substring containment. -/
def strContains (needle hay : String) : Bool :=
  containsSub needle.data hay.data

/-- Index of the first list element satisfying `p` (the Python pattern
`for i, x in enumerate(l): if p(x): idx = i; break`). -/
def findFirst (p : α → Bool) : List α → Option Nat
  | [] => none
  | x :: xs => if p x then some 0 else (findFirst p xs).map (fun i => i + 1)

/-- Replace every pipe character by a space
(`str.replace('|', ' ')` on single characters). -/
def pipeToSpace (s : String) : String :=
  String.mk (s.data.map (fun c => if c = '|' then ' ' else c))

/-- A row of the movies table. `genres_text` models the derived pandas
column of the same name: `none` while the column is absent. -/
structure MovieRow where
  movieId : Int
  title : String
  genres : String
  genres_text : Option String
deriving DecidableEq, Repr

/-- A row of the ratings table. MovieLens scores are exact decimals, so
`ℚ` represents them faithfully. -/
structure RatingRow where
  userId : Int
  movieId : Int
  rating : ℚ
deriving DecidableEq, Repr

/-- Default row used with `List.getD` when indexing the movies table
(never reachable at in-range indices). -/
def mrDefault : MovieRow := ⟨0, "", "", none⟩

/-- The in-place column assignment
`movies_df['genres_text'] = movies_df['genres'].str.replace('|', ' ')`:
every row's `genres_text` field is (over)written. -/
def addGenresText (movies_df : List MovieRow) : List MovieRow :=
  movies_df.map (fun r => { r with genres_text := some (pipeToSpace r.genres) })

/-- Title resolution of `content_based_recommendations`: first pass looks
for an exact case-insensitive title match, and only if that fails a second
pass looks for the first title containing the query as a case-insensitive
substring. -/
def resolveIdx (movies_df : List MovieRow) (movie_title : String) : Option Nat :=
  match findFirst (fun r => lowerStr r.title == lowerStr movie_title) movies_df with
  | some i => some i
  | none => findFirst (fun r => strContains (lowerStr movie_title) (lowerStr r.title)) movies_df

open Classical in
/-- Insert `x` into a list sorted descending by `key`, before the first
element with a strictly smaller key (so equal keys keep earlier elements
first). -/
noncomputable def insertDesc (key : α → ℝ) (x : α) : List α → List α
  | [] => [x]
  | y :: ys => if key y < key x then x :: y :: ys else y :: insertDesc key x ys

/-- Stable descending sort by a real-valued key: the embedding of Python's
`list.sort(key=..., reverse=True)` (Timsort is stable; `reverse=True`
reverses the key comparison, not the list, so equal keys keep their
original relative order). -/
noncomputable def sortDesc (key : α → ℝ) (l : List α) : List α :=
  l.foldl (fun acc x => insertDesc key x acc) []

/-- The list comprehension
`[(i, cosine_similarity(tfidf_vectors[movie_idx], vec)) for i, vec in enumerate(tfidf_vectors)]`. -/
noncomputable def enumSims (vecs : List (List (String × ℝ))) (idx : Nat) : List (Nat × ℝ) :=
  (List.range vecs.length).map (fun i =>
    (i, cosine_similarity (vecs.getD idx []) (vecs.getD i [])))

/-- The ranked candidate list of the content recommender: all indices
other than the resolved one, stably sorted by similarity descending. -/
noncomputable def contentRanked (vecs : List (List (String × ℝ))) (idx : Nat) : List (Nat × ℝ) :=
  sortDesc (fun p => p.2) ((enumSims vecs idx).filter (fun p => p.1 ≠ idx))

/-- The TF-IDF vectors the content recommender builds: one vector per
catalog row, over the row's `genres_text` (genre tags joined by
spaces). -/
noncomputable def contentVecs (movies_df : List MovieRow) : List (List (String × ℝ)) :=
  compute_tfidf ((addGenresText movies_df).map (fun r => r.genres_text.getD ""))

/-- `content_based_recommendations(movies_df, movie_title, n)`. The first
component is the returned frame as (title, genres, similarity) rows; the
second component is the state of the caller's `movies_df` after the call
(the function assigns the derived `genres_text` column in place before
doing anything else). -/
noncomputable def content_based_recommendations
    (movies_df : List MovieRow) (movie_title : String) (n : Nat) :
    List (String × String × ℝ) × List MovieRow :=
  let df2 := addGenresText movies_df
  let tfidf_vectors := contentVecs movies_df
  match resolveIdx df2 movie_title with
  | none => ([], df2)
  | some movie_idx =>
      (((contentRanked tfidf_vectors movie_idx).take n).map (fun p =>
        ((df2.getD p.1 mrDefault).title,
         (df2.getD p.1 mrDefault).genres, p.2)), df2)

/-- `ratings_df['userId'].unique()`: distinct user ids in first-occurrence
order. -/
def uniqueUsers (ratings_df : List RatingRow) : List Int :=
  firstDedup (ratings_df.map (fun r => r.userId))

/-- `ratings_df[ratings_df['userId'] == u]`. -/
def userRatings (ratings_df : List RatingRow) (u : Int) : List RatingRow :=
  ratings_df.filter (fun r => r.userId == u)

/-- The movie ids rated by `u`, in log order. -/
def ratedMovies (ratings_df : List RatingRow) (u : Int) : List Int :=
  (userRatings ratings_df u).map (fun r => r.movieId)

/-- `set(other_ratings['movieId']) & user_rated_movies`, as a list of
distinct ids (first occurrence in the other user's rows first; only size
and membership, and sums invariant under order, are consumed). -/
def commonMovies (ratings_df : List RatingRow) (target u : Int) : List Int :=
  firstDedup ((ratedMovies ratings_df u).filter
    (fun m => (ratedMovies ratings_df target).contains m))

/-- `rows[rows['movieId'] == m]['rating'].values[0]`: the first rating of
movie `m` among `rows` (0 if absent, which callers never hit). -/
def firstRatingOf (rows : List RatingRow) (m : Int) : ℚ :=
  ((rows.find? (fun r => r.movieId == m)).map (fun r => r.rating)).getD 0

/-- Pearson correlation of two paired rating sequences, as `np.corrcoef`
computes it over the reals: `none` exactly when the result would be NaN,
i.e. when either sequence has zero (sum-of-squares) variance. Means and
the centered sums are exact rationals; only the final square roots are
real. -/
noncomputable def pearsonOpt (xs ys : List ℚ) : Option ℝ :=
  let n : ℚ := xs.length
  let mx : ℚ := (xs.foldl (fun a b => a + b) 0) / n
  let my : ℚ := (ys.foldl (fun a b => a + b) 0) / n
  let vx : ℚ := ((xs.map (fun x => (x - mx) ^ 2)).foldl (fun a b => a + b) 0)
  let vy : ℚ := ((ys.map (fun y => (y - my) ^ 2)).foldl (fun a b => a + b) 0)
  let cov : ℚ := (((xs.zip ys).map (fun p => (p.1 - mx) * (p.2 - my))).foldl (fun a b => a + b) 0)
  if vx = 0 ∨ vy = 0 then none
  else some ((cov : ℝ) / (Real.sqrt (vx : ℝ) * Real.sqrt (vy : ℝ)))

/-- The paired rating arrays built over the common movies of `target` and
`u` (target's array first). -/
def pairedArrays (ratings_df : List RatingRow) (target u : Int) : List ℚ × List ℚ :=
  let common := commonMovies ratings_df target u
  (common.map (firstRatingOf (userRatings ratings_df target)),
   common.map (firstRatingOf (userRatings ratings_df u)))

/-- The `similar_users` list of `collaborative_recommendations`: every
other user with at least 5 commonly rated movies and a defined Pearson
correlation, paired with that correlation, in `unique()` order. -/
noncomputable def similar_users (ratings_df : List RatingRow) (user_id : Int) :
    List (Int × ℝ) :=
  (uniqueUsers ratings_df).filterMap (fun u =>
    if u = user_id then none
    else if (commonMovies ratings_df user_id u).length < 5 then none
    else
      match pearsonOpt (pairedArrays ratings_df user_id u).1
                       (pairedArrays ratings_df user_id u).2 with
      | none => none
      | some s => some (u, s))

/-- The rows a neighbor `u` contributes: `u`'s ratings of movies the
target has not rated, with score at least 4.0, in log order. -/
def highRatedRows (ratings_df : List RatingRow) (rated : List Int) (u : Int) :
    List RatingRow :=
  ratings_df.filter (fun r =>
    r.userId == u && !(rated.contains r.movieId) && decide ((4 : ℚ) ≤ r.rating))

/-- One `candidate_movies` dict update: add `ws` to the movie's
`weighted_sum` and `w` to its `score`, appending a fresh entry (initial
sums 0) when the movie is new. -/
def updateCand : List (Int × ℝ × ℝ) → Int → ℝ → ℝ → List (Int × ℝ × ℝ)
  | [], m, ws, w => [(m, ws, w)]
  | (m', a, b) :: rest, m, ws, w =>
      if m' = m then (m', a + ws, b + w) :: rest
      else (m', a, b) :: updateCand rest m ws w

/-- Lookup of a movie's accumulated (weighted_sum, score) pair in the
`candidate_movies` dict. -/
def lookupC (cands : List (Int × ℝ × ℝ)) (m : Int) : Option (ℝ × ℝ) :=
  (cands.find? (fun c => c.1 == m)).map (fun c => c.2)

/-- The top-10 neighborhood: `similar_users` sorted by correlation
descending (stable), first 10 kept. -/
noncomputable def topNeighbors (ratings_df : List RatingRow) (user_id : Int) :
    List (Int × ℝ) :=
  (sortDesc (fun p => p.2) (similar_users ratings_df user_id)).take 10

/-- The `candidate_movies` dict after the aggregation loops: for each
neighbor (in neighborhood order), for each of their qualifying rows (in
log order), accumulate `rating * similarity` and `similarity`. -/
noncomputable def candidateAgg (ratings_df : List RatingRow) (rated : List Int)
    (neighbors : List (Int × ℝ)) : List (Int × ℝ × ℝ) :=
  neighbors.foldl (fun acc p =>
    (highRatedRows ratings_df rated p.1).foldl
      (fun acc2 r => updateCand acc2 r.movieId ((r.rating : ℝ) * p.2) p.2) acc) []

/-- The flat list of individual contributions
(movieId, rating * similarity, similarity), in aggregation order. -/
noncomputable def contribsOf (ratings_df : List RatingRow) (rated : List Int)
    (neighbors : List (Int × ℝ)) : List (Int × ℝ × ℝ) :=
  neighbors.flatMap (fun p =>
    (highRatedRows ratings_df rated p.1).map
      (fun r => (r.movieId, (r.rating : ℝ) * p.2, p.2)))

open Classical in
/-- The `predictions` list: candidates with positive accumulated weight,
scored by `weighted_sum / score`, in dict insertion order. -/
noncomputable def predictionsOf (cands : List (Int × ℝ × ℝ)) : List (Int × ℝ) :=
  cands.filterMap (fun c => if 0 < c.2.2 then some (c.1, c.2.1 / c.2.2) else none)

/-- Join of top predicted movies with catalog metadata: movies absent from
`movies_df` are dropped; the first catalog row with the id provides title
and genres. -/
def joinMovies (movies_df : List MovieRow) (top_movies : List (Int × ℝ)) :
    List (String × String × ℝ) :=
  top_movies.filterMap (fun p =>
    (movies_df.find? (fun row => row.movieId == p.1)).map
      (fun row => (row.title, row.genres, p.2)))

/-- The `candidate_movies` dict built for a target user: aggregation of
the top-10 neighbors' high ratings on movies the target has not rated. -/
noncomputable def candsOf (ratings_df : List RatingRow) (user_id : Int) :
    List (Int × ℝ × ℝ) :=
  candidateAgg ratings_df (ratedMovies ratings_df user_id)
    (topNeighbors ratings_df user_id)

/-- `collaborative_recommendations(ratings_df, movies_df, user_id, n)`:
empty when the user has no ratings; otherwise aggregate the top-10
neighbors' high ratings on unseen movies, predict by weighted average,
sort descending, take `n`, and join with the catalog. The function reads
but never writes its inputs, so it is embedded as a pure function. -/
noncomputable def collaborative_recommendations (ratings_df : List RatingRow)
    (movies_df : List MovieRow) (user_id : Int) (n : Nat) :
    List (String × String × ℝ) :=
  if (uniqueUsers ratings_df).contains user_id = false then []
  else
    joinMovies movies_df
      ((sortDesc (fun p => p.2) (predictionsOf (candsOf ratings_df user_id))).take n)

/-! ## Lemmas about the set/dict embeddings -/

theorem mem_dedupAux {α : Type} [DecidableEq α] (l : List α) :
    ∀ (seen : List α) (a : α), a ∈ dedupAux seen l ↔ a ∈ l ∧ a ∉ seen := by
  induction l with
  | nil => intro seen a; simp [dedupAux]
  | cons x xs ih =>
    intro seen a
    by_cases hx : x ∈ seen
    · rw [dedupAux, if_pos hx, ih]
      constructor
      · rintro ⟨h1, h2⟩; exact ⟨List.mem_cons_of_mem _ h1, h2⟩
      · rintro ⟨h1, h2⟩
        rcases List.mem_cons.mp h1 with rfl | h1
        · exact absurd hx h2
        · exact ⟨h1, h2⟩
    · rw [dedupAux, if_neg hx]
      simp only [List.mem_cons, ih]
      by_cases hax : a = x
      · subst hax; simp [hx]
      · simp [hax]

theorem nodup_dedupAux {α : Type} [DecidableEq α] (l : List α) :
    ∀ seen : List α, (dedupAux seen l).Nodup := by
  induction l with
  | nil => intro seen; simp [dedupAux]
  | cons x xs ih =>
    intro seen
    by_cases hx : x ∈ seen
    · rw [dedupAux, if_pos hx]; exact ih seen
    · rw [dedupAux, if_neg hx]
      refine List.Nodup.cons ?_ (ih (x :: seen))
      intro hmem
      exact ((mem_dedupAux xs (x :: seen) x).mp hmem).2 (List.mem_cons_self x seen)

theorem mem_firstDedup {α : Type} [DecidableEq α] (l : List α) (a : α) :
    a ∈ firstDedup l ↔ a ∈ l := by
  rw [firstDedup, mem_dedupAux]; simp

theorem nodup_firstDedup {α : Type} [DecidableEq α] (l : List α) :
    (firstDedup l).Nodup := nodup_dedupAux l []

theorem count_firstDedup {α : Type} [DecidableEq α] (l : List α) (a : α) :
    (firstDedup l).count a = if a ∈ l then 1 else 0 := by
  by_cases h : a ∈ l
  · rw [if_pos h]
    exact List.count_eq_one_of_mem (nodup_firstDedup l) ((mem_firstDedup l a).mpr h)
  · rw [if_neg h]
    exact List.count_eq_zero_of_not_mem (fun hm => h ((mem_firstDedup l a).mp hm))

theorem dedupAux_congr {α : Type} [DecidableEq α] (l : List α) :
    ∀ seen seen' : List α, (∀ a, a ∈ seen ↔ a ∈ seen') →
      dedupAux seen l = dedupAux seen' l := by
  induction l with
  | nil => intro seen seen' _; rfl
  | cons x xs ih =>
    intro seen seen' h
    by_cases hx : x ∈ seen
    · rw [dedupAux, if_pos hx, dedupAux, if_pos ((h x).mp hx)]
      exact ih seen seen' h
    · rw [dedupAux, if_neg hx, dedupAux, if_neg (fun hx' => hx ((h x).mpr hx'))]
      refine congrArg _ (ih (x :: seen) (x :: seen') fun a => ?_)
      simp only [List.mem_cons, h a]

theorem dfLookup_bumpTerm_self (d : List (String × Nat)) (t : String) :
    dfLookup (bumpTerm d t) t = dfLookup d t + 1 := by
  induction d with
  | nil => simp [bumpTerm, dfLookup]
  | cons p rest ih =>
    obtain ⟨t', c⟩ := p
    by_cases h : t' = t
    · subst h; simp [bumpTerm, dfLookup]
    · simp only [bumpTerm, if_neg h]
      simp only [dfLookup, List.find?] at ih ⊢
      have hb : (t' == t) = false := beq_false_of_ne h
      simp [hb, ih]

theorem dfLookup_bumpTerm_ne (d : List (String × Nat)) (t t' : String) (h : t' ≠ t) :
    dfLookup (bumpTerm d t) t' = dfLookup d t' := by
  induction d with
  | nil => simp [bumpTerm, dfLookup, beq_false_of_ne h, Ne.symm h]
  | cons p rest ih =>
    obtain ⟨s, c⟩ := p
    by_cases hs : s = t
    · subst hs
      simp [bumpTerm, dfLookup, List.find?, beq_false_of_ne h,
        beq_false_of_ne (fun hc => h hc.symm)]
    · simp only [bumpTerm, if_neg hs]
      simp only [dfLookup, List.find?] at ih ⊢
      by_cases hst : s = t'
      · subst hst; simp
      · simp [beq_false_of_ne (fun hc : s = t' => hst hc), ih]

theorem dfLookup_foldl_bump (l : List String) :
    ∀ (d : List (String × Nat)) (t : String),
      dfLookup (l.foldl bumpTerm d) t = dfLookup d t + l.count t := by
  induction l with
  | nil => intro d t; simp
  | cons x xs ih =>
    intro d t
    rw [List.foldl_cons, ih]
    by_cases h : x = t
    · subst h
      rw [dfLookup_bumpTerm_self]
      simp [List.count_cons]
      ring
    · rw [dfLookup_bumpTerm_ne d x t (fun hc => h hc.symm)]
      simp [List.count_cons, beq_false_of_ne h]

theorem dfLookup_counterOf (tokens : List String) (t : String) :
    dfLookup (counterOf tokens) t = tokens.count t := by
  rw [counterOf, dfLookup_foldl_bump]
  simp [dfLookup]

theorem keys_bumpTerm (d : List (String × Nat)) (t : String) :
    (bumpTerm d t).map Prod.fst =
      if t ∈ d.map Prod.fst then d.map Prod.fst else d.map Prod.fst ++ [t] := by
  induction d with
  | nil => simp [bumpTerm]
  | cons p rest ih =>
    obtain ⟨t', c⟩ := p
    by_cases h : t' = t
    · subst h; simp [bumpTerm]
    · have hne : t ≠ t' := fun hc => h hc.symm
      simp only [bumpTerm, if_neg h, List.map_cons, ih]
      by_cases hmem : t ∈ rest.map Prod.fst
      · simp [hmem, hne]
      · simp [hmem, hne]

theorem keys_foldl_bump (l : List String) :
    ∀ d : List (String × Nat),
      (l.foldl bumpTerm d).map Prod.fst =
        d.map Prod.fst ++ dedupAux (d.map Prod.fst) l := by
  induction l with
  | nil => intro d; simp [dedupAux]
  | cons x xs ih =>
    intro d
    rw [List.foldl_cons, ih, keys_bumpTerm]
    by_cases h : x ∈ d.map Prod.fst
    · rw [if_pos h, dedupAux, if_pos h]
    · rw [if_neg h, dedupAux, if_neg h]
      rw [dedupAux_congr xs (d.map Prod.fst ++ [x]) (x :: d.map Prod.fst)
        (fun a => by simp [List.mem_append, or_comm])]
      simp

theorem keys_counterOf (tokens : List String) :
    (counterOf tokens).map Prod.fst = firstDedup tokens := by
  rw [counterOf, keys_foldl_bump]
  simp [firstDedup]

/-! ## Lemmas about the stable descending sort -/

theorem mem_insertDesc {α : Type} (key : α → ℝ) (x : α) (l : List α) (a : α) :
    a ∈ insertDesc key x l ↔ a = x ∨ a ∈ l := by
  induction l with
  | nil => simp [insertDesc]
  | cons y ys ih =>
    rw [insertDesc]
    split
    · simp
    · simp only [List.mem_cons, ih]
      tauto

theorem insertDesc_perm {α : Type} (key : α → ℝ) (x : α) (l : List α) :
    (insertDesc key x l).Perm (x :: l) := by
  induction l with
  | nil => simp [insertDesc]
  | cons y ys ih =>
    rw [insertDesc]
    split
    · exact List.Perm.refl _
    · exact (List.Perm.cons y ih).trans (List.Perm.swap x y ys)

theorem sortDesc_perm {α : Type} (key : α → ℝ) (l : List α) :
    (sortDesc key l).Perm l := by
  suffices h : ∀ (l acc : List α),
      (l.foldl (fun acc x => insertDesc key x acc) acc).Perm (acc ++ l) by
    simpa using h l []
  intro l
  induction l with
  | nil => intro acc; simp
  | cons x xs ih =>
    intro acc
    rw [List.foldl_cons]
    refine (ih (insertDesc key x acc)).trans ?_
    refine (List.Perm.append_right xs (insertDesc_perm key x acc)).trans ?_
    exact List.perm_middle.symm

theorem mem_sortDesc {α : Type} (key : α → ℝ) (l : List α) (a : α) :
    a ∈ sortDesc key l ↔ a ∈ l := (sortDesc_perm key l).mem_iff

theorem pairwise_insertDesc {α : Type} (key : α → ℝ) (x : α) (l : List α)
    (h : l.Pairwise (fun a b => key b ≤ key a)) :
    (insertDesc key x l).Pairwise (fun a b => key b ≤ key a) := by
  induction l with
  | nil => simp [insertDesc]
  | cons y ys ih =>
    rw [insertDesc]
    split
    · rename_i hlt
      refine List.Pairwise.cons ?_ h
      intro z hz
      rcases List.mem_cons.mp hz with rfl | hz
      · exact le_of_lt hlt
      · exact le_trans (List.rel_of_pairwise_cons h hz) (le_of_lt hlt)
    · rename_i hnlt
      refine List.Pairwise.cons ?_ (ih (List.Pairwise.of_cons h))
      intro z hz
      rcases (mem_insertDesc key x ys z).mp hz with rfl | hz
      · exact not_lt.mp hnlt
      · exact List.rel_of_pairwise_cons h hz

theorem sortDesc_sorted {α : Type} (key : α → ℝ) (l : List α) :
    (sortDesc key l).Pairwise (fun a b => key b ≤ key a) := by
  suffices h : ∀ (l acc : List α), acc.Pairwise (fun a b => key b ≤ key a) →
      (l.foldl (fun acc x => insertDesc key x acc) acc).Pairwise
        (fun a b => key b ≤ key a) by
    exact h l [] (List.Pairwise.nil)
  intro l
  induction l with
  | nil => intro acc hacc; simpa using hacc
  | cons x xs ih =>
    intro acc hacc
    rw [List.foldl_cons]
    exact ih _ (pairwise_insertDesc key x acc hacc)

theorem pairwise_insertDesc_stable {α : Type} (key : α → ℝ) (pos : α → Nat)
    (x : α) (l : List α) (hpos : ∀ a ∈ l, pos a < pos x)
    (h : l.Pairwise (fun a b => key b < key a ∨ (key a = key b ∧ pos a < pos b))) :
    (insertDesc key x l).Pairwise
      (fun a b => key b < key a ∨ (key a = key b ∧ pos a < pos b)) := by
  induction l with
  | nil => simp [insertDesc]
  | cons y ys ih =>
    rw [insertDesc]
    split
    · rename_i hlt
      refine List.Pairwise.cons ?_ h
      intro z hz
      rcases List.mem_cons.mp hz with rfl | hz
      · exact Or.inl hlt
      · left
        rcases List.rel_of_pairwise_cons h hz with h1 | ⟨h1, _⟩
        · exact lt_trans h1 hlt
        · exact h1 ▸ hlt
    · rename_i hnlt
      refine List.Pairwise.cons ?_
        (ih (fun a ha => hpos a (List.mem_cons_of_mem _ ha)) (List.Pairwise.of_cons h))
      intro z hz
      rcases (mem_insertDesc key x ys z).mp hz with rfl | hz
      · rcases lt_or_eq_of_le (not_lt.mp hnlt) with h1 | h1
        · exact Or.inl h1
        · exact Or.inr ⟨h1.symm, hpos y (List.mem_cons_self y ys)⟩
      · exact List.rel_of_pairwise_cons h hz

theorem sortDesc_stable {α : Type} (key : α → ℝ) (pos : α → Nat) (l : List α)
    (h : l.Pairwise (fun a b => pos a < pos b)) :
    (sortDesc key l).Pairwise
      (fun a b => key b < key a ∨ (key a = key b ∧ pos a < pos b)) := by
  suffices hgen : ∀ (l acc : List α),
      l.Pairwise (fun a b => pos a < pos b) →
      acc.Pairwise (fun a b => key b < key a ∨ (key a = key b ∧ pos a < pos b)) →
      (∀ a ∈ acc, ∀ b ∈ l, pos a < pos b) →
      (l.foldl (fun acc x => insertDesc key x acc) acc).Pairwise
        (fun a b => key b < key a ∨ (key a = key b ∧ pos a < pos b)) by
    exact hgen l [] h List.Pairwise.nil (by simp)
  intro l
  induction l with
  | nil => intro acc _ hacc _; simpa using hacc
  | cons x xs ih =>
    intro acc hl hacc hcross
    rw [List.foldl_cons]
    refine ih (insertDesc key x acc) (List.Pairwise.of_cons hl) ?_ ?_
    · exact pairwise_insertDesc_stable key pos x acc
        (fun a ha => hcross a ha x (List.mem_cons_self x xs)) hacc
    · intro a ha b hb
      rcases (mem_insertDesc key x acc a).mp ha with rfl | ha
      · exact List.rel_of_pairwise_cons hl hb
      · exact hcross a ha b (List.mem_cons_of_mem _ hb)

/-! ## Characterization of the TF-IDF vectors -/

theorem dfLookup_term_doc_freq (dts : List (List String)) (t : String) :
    dfLookup (term_doc_freq dts) t = dts.countP (fun tk => decide (t ∈ tk)) := by
  suffices h : ∀ (dts : List (List String)) (d : List (String × Nat)) (t : String),
      dfLookup (dts.foldl (fun d tokens => (firstDedup tokens).foldl bumpTerm d) d) t
        = dfLookup d t + dts.countP (fun tk => decide (t ∈ tk)) by
    have := h dts [] t
    rw [term_doc_freq, this]
    simp [dfLookup]
  intro dts
  induction dts with
  | nil => intro d t; simp [dfLookup]
  | cons tk rest ih =>
    intro d t
    rw [List.foldl_cons, ih, dfLookup_foldl_bump, count_firstDedup, List.countP_cons]
    by_cases h : t ∈ tk
    · simp [h]; ring
    · simp [h]

theorem compute_tfidf_eq (docs : List String) :
    compute_tfidf docs = docs.map (fun doc =>
      (counterOf (tokenize doc)).map (fun p =>
        (p.1, (p.2 : ℝ) * idfOf docs p.1))) := by
  simp only [compute_tfidf, idfOf, List.map_map]
  rfl

theorem getD_compute_tfidf (docs : List String) (i : Nat) :
    (compute_tfidf docs).getD i [] =
      (counterOf (tokenize (docs.getD i ""))).map (fun p =>
        (p.1, (p.2 : ℝ) * idfOf docs p.1)) := by
  rw [compute_tfidf_eq]
  rcases Nat.lt_or_ge i docs.length with h | h
  · rw [List.getD_eq_getElem?_getD, List.getElem?_map, List.getElem?_eq_getElem h,
      List.getD_eq_getElem?_getD, List.getElem?_eq_getElem h]
    rfl
  · have h1 : docs[i]? = none := List.getElem?_eq_none h
    rw [List.getD_eq_getElem?_getD, List.getElem?_map, h1,
      List.getD_eq_getElem?_getD, h1]
    rfl

theorem find?_counterOf (tokens : List String) (t : String) :
    (counterOf tokens).find? (fun p => p.1 == t) =
      if t ∈ tokens then some (t, tokens.count t) else none := by
  by_cases h : t ∈ tokens
  · rw [if_pos h]
    have hkey : t ∈ (counterOf tokens).map Prod.fst := by
      rw [keys_counterOf]; exact (mem_firstDedup tokens t).mpr h
    obtain ⟨p, hp, hpt⟩ := List.mem_map.mp hkey
    have hsome : ((counterOf tokens).find? (fun p => p.1 == t)).isSome := by
      rw [List.find?_isSome]
      exact ⟨p, hp, by simp [hpt]⟩
    obtain ⟨q, hq⟩ := Option.isSome_iff_exists.mp hsome
    have hq1 : q.1 = t := by
      have := List.find?_some hq
      simpa using this
    have hq2 : q.2 = tokens.count t := by
      have hl : dfLookup (counterOf tokens) t = q.2 := by
        rw [dfLookup, hq]; rfl
      rw [← hl, dfLookup_counterOf]
    rw [hq]
    exact congrArg some (Prod.ext hq1 hq2)
  · rw [if_neg h, List.find?_eq_none]
    intro p hp
    have hmem : p.1 ∈ (counterOf tokens).map Prod.fst := List.mem_map_of_mem _ hp
    rw [keys_counterOf, mem_firstDedup] at hmem
    simp only [beq_iff_eq]
    exact fun hc => h (hc ▸ hmem)

theorem vecLookup_compute_tfidf (docs : List String) (i : Nat) (t : String) :
    vecLookup ((compute_tfidf docs).getD i []) t =
      if t ∈ tokenize (docs.getD i "") then
        some (((tokenize (docs.getD i "")).count t : ℝ) * idfOf docs t)
      else none := by
  rw [getD_compute_tfidf, vecLookup, List.find?_map]
  have hcomp : ((fun p : String × ℝ => p.1 == t) ∘
      (fun p : String × Nat => (p.1, (p.2 : ℝ) * idfOf docs p.1))) =
      (fun p : String × Nat => p.1 == t) := rfl
  rw [hcomp, find?_counterOf]
  by_cases h : t ∈ tokenize (docs.getD i "")
  · simp [h]
  · simp [h]

/-! ## Claim theorems: vectorizer -/

/-- Claim C10: the vectorizer is total on the empty corpus:
`compute_tfidf` applied to an empty list of documents returns an empty
list of vectors (no document is processed, so the idf expression is
never evaluated), even though the spec declares the N = 0 case
undefined. -/
theorem c10_empty_corpus_total : compute_tfidf [] = [] := rfl

/-- Claim C6, counterexample: in the corpus `["a b", "a"]` the term `b`
occurs in exactly 1 of the 2 documents, so its idf factor is
`ln(2/(1+1)) = 0`; yet `b` IS a key of the first document's vector, with
weight 0 — zero-weight terms are stored, not omitted. -/
theorem c6_counterexample :
    vecLookup ((compute_tfidf ["a b", "a"]).getD 0 []) "b" = some 0 := by
  have hdf : dfLookup (term_doc_freq ((["a b", "a"] : List String).map tokenize)) "b" = 1 := by
    decide
  have hcount : (tokenize ((["a b", "a"] : List String).getD 0 "")).count "b" = 1 := by
    decide
  rw [vecLookup_compute_tfidf, if_pos (by decide), hcount]
  simp only [idfOf, hdf]
  norm_num

/-- Claim C6 (amended): a vector produced by the vectorizer has as keys
exactly the distinct terms of its own document, in first-occurrence
order — terms absent from the document are omitted, but occurring terms
are always keys, even when their weight is 0 (idf factor
`ln(N/(1+df)) = 0` at `df = N - 1`). -/
theorem c6_amended_vector_keys (docs : List String) (i : Nat) :
    ((compute_tfidf docs).getD i []).map Prod.fst =
      firstDedup (tokenize (docs.getD i "")) := by
  rw [getD_compute_tfidf, List.map_map]
  have hcomp : (Prod.fst ∘ fun p : String × Nat =>
      (p.1, (p.2 : ℝ) * idfOf docs p.1)) = Prod.fst := rfl
  rw [hcomp, keys_counterOf]

/-- Claim C5: for a corpus of N ≥ 1 documents, the weight the vectorizer
stores for a term occurring in document i is
`tf * ln(N / (1 + df))` where `tf` is the raw whitespace-token occurrence
count in the document and `df` the number of documents containing the
term; a term present in every document gets `tf * ln(N/(N+1))`, which is
negative and preserved. -/
theorem c5_tfidf_weight (docs : List String) (i : Nat) (t : String)
    (hi : i < docs.length) (ht : t ∈ tokenize (docs.getD i "")) :
    vecLookup ((compute_tfidf docs).getD i []) t =
      some (((tokenize (docs.getD i "")).count t : ℝ) *
        Real.log ((docs.length : ℝ) /
          (1 + ((docs.map tokenize).countP (fun tk => decide (t ∈ tk)) : ℝ)))) ∧
    ((∀ doc ∈ docs, t ∈ tokenize doc) →
      vecLookup ((compute_tfidf docs).getD i []) t =
        some (((tokenize (docs.getD i "")).count t : ℝ) *
          Real.log ((docs.length : ℝ) / ((docs.length : ℝ) + 1))) ∧
      ((tokenize (docs.getD i "")).count t : ℝ) *
          Real.log ((docs.length : ℝ) / ((docs.length : ℝ) + 1)) < 0) := by
  have hmain : vecLookup ((compute_tfidf docs).getD i []) t =
      some (((tokenize (docs.getD i "")).count t : ℝ) *
        Real.log ((docs.length : ℝ) /
          (1 + ((docs.map tokenize).countP (fun tk => decide (t ∈ tk)) : ℝ)))) := by
    rw [vecLookup_compute_tfidf, if_pos ht]
    simp only [idfOf, dfLookup_term_doc_freq]
  refine ⟨hmain, fun hall => ?_⟩
  have hdfall : (docs.map tokenize).countP (fun tk => decide (t ∈ tk)) =
      docs.length := by
    rw [List.countP_eq_length.mpr, List.length_map]
    intro tk htk
    obtain ⟨doc, hdoc, rfl⟩ := List.mem_map.mp htk
    simpa using hall doc hdoc
  have hN : (0 : ℝ) < (docs.length : ℝ) := by
    have : 0 < docs.length := Nat.lt_of_le_of_lt (Nat.zero_le i) hi
    exact_mod_cast this
  have hlog : Real.log ((docs.length : ℝ) / ((docs.length : ℝ) + 1)) < 0 := by
    apply Real.log_neg
    · positivity
    · rw [div_lt_one (by positivity)]
      linarith
  have htf : (1 : ℝ) ≤ ((tokenize (docs.getD i "")).count t : ℝ) := by
    have : 0 < (tokenize (docs.getD i "")).count t := List.count_pos_iff.mpr ht
    exact_mod_cast this
  refine ⟨?_, ?_⟩
  · rw [hmain, hdfall]
    norm_num [add_comm]
  · exact mul_neg_of_pos_of_neg (by linarith) hlog

/-- Closed witness for C5: in the corpus `["a", "a a"]` the term `a`
occurs twice in document 1 and in both documents, so its stored weight is
`2 * ln(2/3)`. -/
theorem c5_tfidf_weight_witness :
    1 < (["a", "a a"] : List String).length ∧
    vecLookup ((compute_tfidf ["a", "a a"]).getD 1 []) "a" =
      some (((tokenize ((["a", "a a"] : List String).getD 1 "")).count "a" : ℝ) *
        Real.log (((["a", "a a"] : List String).length : ℝ) /
          (1 + (((["a", "a a"] : List String).map tokenize).countP
            (fun tk => decide ("a" ∈ tk)) : ℝ)))) :=
  ⟨by decide, (c5_tfidf_weight ["a", "a a"] 1 "a" (by decide) (by decide)).1⟩

/-- In an association list with nodup keys, `find?` on the key of a
member returns exactly that member. -/
theorem find?_eq_of_mem_nodupKeys {α β : Type} [BEq α] [LawfulBEq α]
    (l : List (α × β)) (q : α × β) (hq : q ∈ l)
    (hnd : (l.map Prod.fst).Nodup) : l.find? (fun p => p.1 == q.1) = some q := by
  induction l with
  | nil => cases hq
  | cons r rest ih =>
    rcases List.mem_cons.mp hq with rfl | hq'
    · rw [List.find?_cons_of_pos _ (by simp)]
    · have hr : r.1 ∉ rest.map Prod.fst := (List.nodup_cons.mp hnd).1
      have hqk : q.1 ∈ rest.map Prod.fst := List.mem_map_of_mem _ hq'
      have hne : (r.1 == q.1) = false :=
        beq_false_of_ne (fun hc => hr (hc ▸ hqk))
      rw [List.find?_cons_of_neg _ (by simp [hne])]
      exact ih hq' (List.nodup_cons.mp hnd).2

/-- Every entry of `Counter(tokens)` stores the raw occurrence count of
its key. -/
theorem counterOf_mem_eq (tokens : List String) (q : String × Nat)
    (hq : q ∈ counterOf tokens) : q.2 = tokens.count q.1 := by
  have hnd : ((counterOf tokens).map Prod.fst).Nodup := by
    rw [keys_counterOf]; exact nodup_firstDedup tokens
  have hfind := find?_eq_of_mem_nodupKeys (counterOf tokens) q hq hnd
  have hdf := dfLookup_counterOf tokens q.1
  rw [dfLookup, hfind] at hdf
  simpa using hdf

/-- Every entry of a vector of `compute_tfidf docs` carries the weight
`tf * idf` of its key, where the idf factor is shared across the whole
corpus. -/
theorem entry_compute_tfidf (docs : List String) (i : Nat) (p : String × ℝ)
    (hp : p ∈ (compute_tfidf docs).getD i []) :
    p.2 = ((tokenize (docs.getD i "")).count p.1 : ℝ) * idfOf docs p.1 := by
  rw [getD_compute_tfidf] at hp
  obtain ⟨q, hq, rfl⟩ := List.mem_map.mp hp
  have hc := counterOf_mem_eq _ q hq
  simp [hc]

/-- A key of a vector of `compute_tfidf docs` is a token of its
document. -/
theorem key_mem_tokenize (docs : List String) (j : Nat) (p : String × ℝ)
    (hp : p ∈ (compute_tfidf docs).getD j []) :
    p.1 ∈ tokenize (docs.getD j "") := by
  have hmem : p.1 ∈ ((compute_tfidf docs).getD j []).map Prod.fst :=
    List.mem_map_of_mem _ hp
  rw [getD_compute_tfidf, List.map_map] at hmem
  have hcomp : (Prod.fst ∘ fun q : String × Nat =>
      (q.1, (q.2 : ℝ) * idfOf docs q.1)) = Prod.fst := rfl
  rw [hcomp, keys_counterOf, mem_firstDedup] at hmem
  exact hmem

/-- The dot product of two vectors of the same corpus is a sum of terms
`tf_i * tf_j * idf^2`, hence non-negative, even though individual
weights may be negative: the idf factor of a shared term is the same on
both sides. -/
theorem tfidf_dot_nonneg (docs : List String) (i j : Nat) :
    0 ≤ ((((compute_tfidf docs).getD i []).filter
        (fun p => ((compute_tfidf docs).getD j []).any (fun q => q.1 == p.1))).map
        (fun p => p.2 * ((vecLookup ((compute_tfidf docs).getD j []) p.1).getD 0))).sum := by
  apply List.sum_nonneg
  intro x hx
  obtain ⟨pq, hpq, rfl⟩ := List.mem_map.mp hx
  obtain ⟨hp1, hpred⟩ := List.mem_filter.mp hpq
  obtain ⟨q, hq, hqk⟩ := List.any_eq_true.mp hpred
  have hqk1 : q.1 = pq.1 := by simpa using hqk
  have hkey : pq.1 ∈ tokenize (docs.getD j "") := hqk1 ▸ key_mem_tokenize docs j q hq
  have hval : vecLookup ((compute_tfidf docs).getD j []) pq.1 =
      some (((tokenize (docs.getD j "")).count pq.1 : ℝ) * idfOf docs pq.1) := by
    rw [vecLookup_compute_tfidf, if_pos hkey]
  have hpval := entry_compute_tfidf docs i pq hp1
  rw [hval, hpval, Option.getD_some]
  have hring : ((tokenize (docs.getD i "")).count pq.1 : ℝ) * idfOf docs pq.1 *
      (((tokenize (docs.getD j "")).count pq.1 : ℝ) * idfOf docs pq.1) =
      (((tokenize (docs.getD i "")).count pq.1 : ℝ) *
        ((tokenize (docs.getD j "")).count pq.1 : ℝ)) * idfOf docs pq.1 ^ 2 := by
    ring
  rw [hring]
  positivity

/-- Claim C7: for every corpus and every pair of documents in it, the
cosine similarity of their TF-IDF vectors is non-negative (the guard
branches return 0; the main branch divides a non-negative dot product by
a product of non-negative magnitudes). -/
theorem c7_cosine_nonneg (docs : List String) (i j : Nat)
    (hi : i < docs.length) (hj : j < docs.length) :
    0 ≤ cosine_similarity ((compute_tfidf docs).getD i [])
      ((compute_tfidf docs).getD j []) := by
  have hdot := tfidf_dot_nonneg docs i j
  simp only [cosine_similarity]
  split_ifs with h1 h2
  · exact le_refl 0
  · exact le_refl 0
  · exact div_nonneg hdot (mul_nonneg (Real.sqrt_nonneg _) (Real.sqrt_nonneg _))

/-- Closed witness for C7 at the one-document corpus. -/
theorem c7_cosine_nonneg_witness :
    0 < (["a"] : List String).length ∧
    0 ≤ cosine_similarity ((compute_tfidf ["a"]).getD 0 [])
      ((compute_tfidf ["a"]).getD 0 []) :=
  ⟨by decide, c7_cosine_nonneg ["a"] 0 0 (by decide) (by decide)⟩

/-! ## The first-match loop and title resolution -/

theorem findFirst_eq_none {α : Type} (p : α → Bool) (l : List α) :
    findFirst p l = none ↔ ∀ x ∈ l, p x = false := by
  induction l with
  | nil => simp [findFirst]
  | cons x xs ih =>
    rw [findFirst]
    by_cases h : p x
    · simp [h]
    · simp [h, Option.map_eq_none', ih]

theorem findFirst_eq_some {α : Type} (p : α → Bool) (d : α) (l : List α) :
    ∀ i : Nat, findFirst p l = some i ↔
      (i < l.length ∧ p (l.getD i d) = true ∧ ∀ j < i, p (l.getD j d) = false) := by
  induction l with
  | nil => intro i; simp [findFirst]
  | cons x xs ih =>
    intro i
    rw [findFirst]
    by_cases h : p x
    · rw [if_pos h]
      constructor
      · intro h0
        have h0' : i = 0 := by
          have := Option.some.inj h0
          omega
        subst h0'
        simp [h]
      · rintro ⟨hlen, hpi, hj⟩
        rcases Nat.eq_zero_or_pos i with rfl | hpos
        · rfl
        · have hfalse := hj 0 hpos
          rw [List.getD_cons_zero] at hfalse
          rw [h] at hfalse
          cases hfalse
    · rw [if_neg h]
      constructor
      · intro hm
        obtain ⟨i', hi', hii⟩ := Option.map_eq_some'.mp hm
        subst hii
        obtain ⟨hlen, hp, hj⟩ := (ih i').mp hi'
        refine ⟨by simpa using Nat.succ_lt_succ hlen, by simpa using hp, ?_⟩
        intro j hj'
        cases j with
        | zero =>
          rw [List.getD_cons_zero]
          exact Bool.not_eq_true _ ▸ (Bool.eq_false_iff.mpr (fun hc => h hc))
        | succ j' =>
          rw [List.getD_cons_succ]
          exact hj j' (Nat.lt_of_succ_lt_succ hj')
      · rintro ⟨hlen, hp, hj⟩
        cases i with
        | zero =>
          rw [List.getD_cons_zero] at hp
          exact absurd hp h
        | succ i' =>
          have hfx : findFirst p xs = some i' := by
            refine (ih i').mpr ⟨Nat.lt_of_succ_lt_succ (by simpa using hlen), ?_, ?_⟩
            · simpa using hp
            · intro j hj'
              have := hj (j + 1) (Nat.succ_lt_succ hj')
              rwa [List.getD_cons_succ] at this
          rw [hfx]
          rfl

theorem forall_mem_iff_idx {α : Type} (l : List α) (d : α) (p : α → Prop) :
    (∀ x ∈ l, p x) ↔ ∀ j, (hj : j < l.length) → p (l.getD j d) := by
  constructor
  · intro h j hj
    rw [List.getD_eq_getElem l d hj]
    exact h _ (List.getElem_mem hj)
  · intro h x hx
    obtain ⟨j, hj, rfl⟩ := List.mem_iff_getElem.mp hx
    have hgd := h j hj
    rwa [List.getD_eq_getElem l d hj] at hgd

/-- Adding the `genres_text` column changes no title and no length. -/
theorem titles_addGenresText (movies_df : List MovieRow) :
    (addGenresText movies_df).map (fun r => r.title) =
      movies_df.map (fun r => r.title) := by
  rw [addGenresText, List.map_map]
  rfl

theorem length_addGenresText (movies_df : List MovieRow) :
    (addGenresText movies_df).length = movies_df.length := by
  rw [addGenresText, List.length_map]

/-! ## Claim theorems: content recommender lookup and error paths -/

/-- Claim C8: `content_based_recommendations` resolves the query title
case-insensitively in two passes over the whole catalog: the first entry
with an exactly equal lower-cased title wins; only when no entry matches
exactly does the first entry whose lower-cased title contains the
lower-cased query as a substring win; when neither pass matches the
resolution fails and the call yields an empty result. -/
theorem c8_title_resolution (movies_df : List MovieRow) (movie_title : String)
    (n : Nat) :
    (∀ i, resolveIdx (addGenresText movies_df) movie_title = some i →
      i < (addGenresText movies_df).length ∧
      (((fun r => lowerStr r.title == lowerStr movie_title)
          ((addGenresText movies_df).getD i mrDefault) = true ∧
        ∀ j < i, (fun r => lowerStr r.title == lowerStr movie_title)
          ((addGenresText movies_df).getD j mrDefault) = false) ∨
       ((∀ j, (hj : j < (addGenresText movies_df).length) →
          (fun r => lowerStr r.title == lowerStr movie_title)
            ((addGenresText movies_df).getD j mrDefault) = false) ∧
        (fun r => strContains (lowerStr movie_title) (lowerStr r.title))
          ((addGenresText movies_df).getD i mrDefault) = true ∧
        ∀ j < i, (fun r => strContains (lowerStr movie_title) (lowerStr r.title))
          ((addGenresText movies_df).getD j mrDefault) = false))) ∧
    (resolveIdx (addGenresText movies_df) movie_title = none ↔
      ∀ j, (hj : j < (addGenresText movies_df).length) →
        (fun r => lowerStr r.title == lowerStr movie_title)
          ((addGenresText movies_df).getD j mrDefault) = false ∧
        (fun r => strContains (lowerStr movie_title) (lowerStr r.title))
          ((addGenresText movies_df).getD j mrDefault) = false) ∧
    (resolveIdx (addGenresText movies_df) movie_title = none →
      (content_based_recommendations movies_df movie_title n).1 = []) := by
  refine ⟨?_, ?_, ?_⟩
  · intro i hres
    rw [resolveIdx] at hres
    cases hfe : findFirst (fun r => lowerStr r.title == lowerStr movie_title)
        (addGenresText movies_df) with
    | some k =>
      rw [hfe] at hres
      have hk : k = i := Option.some.inj hres
      subst hk
      obtain ⟨hlen, hp, hj⟩ :=
        (findFirst_eq_some (fun r => lowerStr r.title == lowerStr movie_title)
          mrDefault (addGenresText movies_df) k).mp hfe
      exact ⟨hlen, Or.inl ⟨hp, hj⟩⟩
    | none =>
      rw [hfe] at hres
      obtain ⟨hlen, hp, hj⟩ :=
        (findFirst_eq_some (fun r => strContains (lowerStr movie_title) (lowerStr r.title))
          mrDefault (addGenresText movies_df) i).mp hres
      have hall := (findFirst_eq_none _ _).mp hfe
      refine ⟨hlen, Or.inr ⟨?_, hp, hj⟩⟩
      exact (forall_mem_iff_idx (addGenresText movies_df) mrDefault _).mp hall
  · rw [resolveIdx]
    cases hfe : findFirst (fun r => lowerStr r.title == lowerStr movie_title)
        (addGenresText movies_df) with
    | some k =>
      simp only []
      constructor
      · intro hcontra; cases hcontra
      · intro hall
        have hk :=
          (findFirst_eq_some (fun r => lowerStr r.title == lowerStr movie_title)
            mrDefault (addGenresText movies_df) k).mp hfe
        have := (hall k hk.1).1
        rw [hk.2.1] at this
        cases this
    | none =>
      have hallex := (findFirst_eq_none _ _).mp hfe
      constructor
      · intro hsub
        have hallsub := (findFirst_eq_none _ _).mp hsub
        intro j hj
        refine ⟨?_, ?_⟩
        · exact (forall_mem_iff_idx (addGenresText movies_df) mrDefault _).mp hallex j hj
        · exact (forall_mem_iff_idx (addGenresText movies_df) mrDefault _).mp hallsub j hj
      · intro hall
        rw [findFirst_eq_none]
        rw [forall_mem_iff_idx (addGenresText movies_df) mrDefault]
        intro j hj
        exact (hall j hj).2
  · intro hnone
    rw [content_based_recommendations]
    simp only [hnone]

/-- Closed witness for C8: a one-row catalog where the query matches only
as a case-insensitive substring. -/
theorem c8_title_resolution_witness :
    resolveIdx (addGenresText [⟨1, "Toy Story", "A|B", none⟩]) "STORY" = some 0 ∧
    ((fun r => strContains (lowerStr "STORY") (lowerStr r.title))
      ((addGenresText [⟨1, "Toy Story", "A|B", none⟩]).getD 0 mrDefault) = true) :=
  ⟨by decide,
    by
      rcases ((c8_title_resolution [⟨1, "Toy Story", "A|B", none⟩] "STORY" 5).1 0
        (by decide)).2 with h | h
      · exact absurd h.1 (by decide)
      · exact h.2.1⟩

/-- Claim C9: failed lookups yield empty results (and, the embedding
being total, no exception): an unresolved query title makes
`content_based_recommendations` return an empty frame, and a user id
with no ratings in the log makes `collaborative_recommendations` return
an empty frame. -/
theorem c9_failed_lookups (movies_df : List MovieRow) (movie_title : String)
    (n : Nat) (ratings_df : List RatingRow) (movies_df2 : List MovieRow)
    (user_id : Int) (m : Nat)
    (h1 : resolveIdx (addGenresText movies_df) movie_title = none)
    (h2 : (uniqueUsers ratings_df).contains user_id = false) :
    (content_based_recommendations movies_df movie_title n).1 = [] ∧
    collaborative_recommendations ratings_df movies_df2 user_id m = [] := by
  constructor
  · rw [content_based_recommendations]
    simp only [h1]
  · rw [collaborative_recommendations, if_pos h2]

/-- Closed witness for C9: an unmatched title and an absent user id. -/
theorem c9_failed_lookups_witness :
    resolveIdx (addGenresText [⟨1, "Toy Story", "A|B", none⟩]) "zzz" = none ∧
    (uniqueUsers [⟨1, 10, 4⟩]).contains 99 = false ∧
    (content_based_recommendations [⟨1, "Toy Story", "A|B", none⟩] "zzz" 5).1 = [] ∧
    collaborative_recommendations [⟨1, 10, 4⟩] [⟨1, "Toy Story", "A|B", none⟩] 99 5 = [] := by
  refine ⟨by decide, by decide, ?_⟩
  have h := c9_failed_lookups [⟨1, "Toy Story", "A|B", none⟩] "zzz" 5
    [⟨1, 10, 4⟩] [⟨1, "Toy Story", "A|B", none⟩] 99 5 (by decide) (by decide)
  exact h

/-! ## Claim theorems: content recommender frame effect and ranking -/

/-- The catalog state returned by `content_based_recommendations` is the
input catalog with the `genres_text` column written, on every path. -/
theorem content_snd_eq (movies_df : List MovieRow) (movie_title : String) (n : Nat) :
    (content_based_recommendations movies_df movie_title n).2 =
      addGenresText movies_df := by
  rw [content_based_recommendations]
  cases h : resolveIdx (addGenresText movies_df) movie_title <;> simp [h]

/-- Claim C4, counterexample: `content_based_recommendations` does NOT
leave the caller's catalog unchanged — on a catalog without the
`genres_text` column, the column is present after the call. -/
theorem c4_counterexample :
    (content_based_recommendations [⟨1, "Toy Story", "A|B", none⟩] "zzz" 5).2 ≠
      [⟨1, "Toy Story", "A|B", none⟩] := by
  rw [content_snd_eq]
  decide

/-- Claim C4 (amended): `collaborative_recommendations` reads but never
writes its inputs (it is embedded as a pure function), and
`content_based_recommendations` leaves the rating log untouched, but it
mutates the caller's catalog: it writes the derived `genres_text` column
(genres with pipes replaced by spaces) into every row, leaving ids,
titles, genres and row order unchanged. -/
theorem c4_amended_frame (movies_df : List MovieRow) (movie_title : String) (n : Nat) :
    ((content_based_recommendations movies_df movie_title n).2).map
        (fun r => (r.movieId, r.title, r.genres)) =
      movies_df.map (fun r => (r.movieId, r.title, r.genres)) ∧
    ∀ r ∈ (content_based_recommendations movies_df movie_title n).2,
      r.genres_text = some (pipeToSpace r.genres) := by
  rw [content_snd_eq]
  constructor
  · rw [addGenresText, List.map_map]
    rfl
  · intro r hr
    rw [addGenresText] at hr
    obtain ⟨s, hs, rfl⟩ := List.mem_map.mp hr
    rfl

/-- Membership in the enumerated similarity list: each element is its
index paired with the cosine similarity of that index's vector against
the resolved entry's vector. -/
theorem mem_enumSims (vecs : List (List (String × ℝ))) (idx : Nat)
    (p : Nat × ℝ) (hp : p ∈ enumSims vecs idx) :
    p.1 < vecs.length ∧
    p.2 = cosine_similarity (vecs.getD idx []) (vecs.getD p.1 []) := by
  rw [enumSims] at hp
  obtain ⟨i, hi, rfl⟩ := List.mem_map.mp hp
  exact ⟨List.mem_range.mp hi, rfl⟩

/-- Claim C3: when the query resolves to catalog entry `idx`, the content
recommender's output is the first `n` of the candidate list (all indices
other than `idx`) stably sorted by cosine similarity against `idx`'s
vector descending; hence it has at most `n` rows, never contains the
resolved entry, carries the cosine scores, and the ranking is descending
with ties broken by original catalog order. -/
theorem c3_content_ranking (movies_df : List MovieRow) (movie_title : String)
    (n : Nat) (idx : Nat)
    (h : resolveIdx (addGenresText movies_df) movie_title = some idx) :
    (content_based_recommendations movies_df movie_title n).1 =
      ((contentRanked (contentVecs movies_df) idx).take n).map
        (fun p => (((addGenresText movies_df).getD p.1 mrDefault).title,
          ((addGenresText movies_df).getD p.1 mrDefault).genres, p.2)) ∧
    (content_based_recommendations movies_df movie_title n).1.length ≤ n ∧
    (∀ p ∈ (contentRanked (contentVecs movies_df) idx).take n,
      p.1 ≠ idx ∧ p.1 < (contentVecs movies_df).length ∧
      p.2 = cosine_similarity ((contentVecs movies_df).getD idx [])
        ((contentVecs movies_df).getD p.1 [])) ∧
    (contentRanked (contentVecs movies_df) idx).Pairwise
      (fun a b => b.2 < a.2 ∨ (a.2 = b.2 ∧ a.1 < b.1)) := by
  have heq : (content_based_recommendations movies_df movie_title n).1 =
      ((contentRanked (contentVecs movies_df) idx).take n).map
        (fun p => (((addGenresText movies_df).getD p.1 mrDefault).title,
          ((addGenresText movies_df).getD p.1 mrDefault).genres, p.2)) := by
    rw [content_based_recommendations]
    simp only [h]
  refine ⟨heq, ?_, ?_, ?_⟩
  · rw [heq, List.length_map, List.length_take]
    exact min_le_left _ _
  · intro p hp
    have hp' : p ∈ contentRanked (contentVecs movies_df) idx :=
      List.mem_of_mem_take hp
    rw [contentRanked, mem_sortDesc] at hp'
    obtain ⟨hmem, hpred⟩ := List.mem_filter.mp hp'
    obtain ⟨hlt, hcos⟩ := mem_enumSims (contentVecs movies_df) idx p hmem
    refine ⟨by simpa using hpred, hlt, hcos⟩
  · rw [contentRanked]
    apply sortDesc_stable (fun p : Nat × ℝ => p.2) (fun p : Nat × ℝ => p.1)
    apply List.Pairwise.filter
    rw [enumSims, List.pairwise_map]
    exact List.pairwise_lt_range _

/-- Closed witness for C3: a three-row catalog with an exact query
match. -/
theorem c3_content_ranking_witness :
    resolveIdx (addGenresText
      [⟨1, "A", "X|Y", none⟩, ⟨2, "B", "X|Y", none⟩, ⟨3, "C", "Z", none⟩]) "a" = some 0 ∧
    (content_based_recommendations
      [⟨1, "A", "X|Y", none⟩, ⟨2, "B", "X|Y", none⟩, ⟨3, "C", "Z", none⟩] "a" 2).1.length ≤ 2 :=
  ⟨by decide,
    (c3_content_ranking
      [⟨1, "A", "X|Y", none⟩, ⟨2, "B", "X|Y", none⟩, ⟨3, "C", "Z", none⟩]
      "a" 2 0 (by decide)).2.1⟩

/-! ## Claim theorems: neighbor selection -/

/-- `pearsonOpt` is defined (non-NaN) exactly when both centered
sum-of-squares are non-zero. -/
theorem pearsonOpt_isSome_iff (xs ys : List ℚ) :
    (pearsonOpt xs ys).isSome = true ↔
      (((xs.map (fun x => (x - xs.foldl (fun a b => a + b) 0 / (xs.length : ℚ)) ^ 2)).foldl
          (fun a b => a + b) 0 ≠ 0) ∧
       ((ys.map (fun y => (y - ys.foldl (fun a b => a + b) 0 / (xs.length : ℚ)) ^ 2)).foldl
          (fun a b => a + b) 0 ≠ 0)) := by
  simp only [pearsonOpt]
  split_ifs with h
  · simp only [Option.isSome_none, Bool.false_eq_true, false_iff]
    push_neg
    intro ha
    rcases h with h | h
    · exact absurd h ha
    · exact h
  · push_neg at h
    simp only [Option.isSome_some, true_iff]
    exact h

/-- Membership characterization of the `similar_users` list. -/
theorem similar_users_mem (ratings_df : List RatingRow) (user_id u : Int) (s : ℝ) :
    (u, s) ∈ similar_users ratings_df user_id ↔
      (u ∈ uniqueUsers ratings_df ∧ u ≠ user_id ∧
       5 ≤ (commonMovies ratings_df user_id u).length ∧
       pearsonOpt (pairedArrays ratings_df user_id u).1
         (pairedArrays ratings_df user_id u).2 = some s) := by
  rw [similar_users, List.mem_filterMap]
  constructor
  · rintro ⟨a, ha, hfa⟩
    by_cases h1 : a = user_id
    · rw [if_pos h1] at hfa; cases hfa
    · rw [if_neg h1] at hfa
      by_cases h2 : (commonMovies ratings_df user_id a).length < 5
      · rw [if_pos h2] at hfa; cases hfa
      · rw [if_neg h2] at hfa
        cases hp : pearsonOpt (pairedArrays ratings_df user_id a).1
            (pairedArrays ratings_df user_id a).2 with
        | none => rw [hp] at hfa; cases hfa
        | some s' =>
          rw [hp] at hfa
          have hinj := Option.some.inj hfa
          have hau : a = u := congrArg Prod.fst hinj
          have hss : s' = s := congrArg Prod.snd hinj
          subst hau
          subst hss
          exact ⟨ha, h1, not_lt.mp h2, hp⟩
  · rintro ⟨hu, hne, hlen, hp⟩
    refine ⟨u, hu, ?_⟩
    rw [if_neg hne, if_neg (not_lt.mpr hlen), hp]

/-- Claim C2: another user is a candidate neighbor iff they appear in the
log, differ from the target, share at least 5 commonly rated movies with
the target (4 is skipped, 5 is considered), and the Pearson correlation
over the common movies is defined; each candidate carries exactly that
correlation, the candidate list is ranked by correlation descending, and
only its first 10 entries (the top-10 cap used by the aggregation) are
kept. -/
theorem c2_neighbor_selection (ratings_df : List RatingRow) (user_id : Int) :
    (∀ u : Int, (∃ s, (u, s) ∈ similar_users ratings_df user_id) ↔
      (u ∈ uniqueUsers ratings_df ∧ u ≠ user_id ∧
       5 ≤ (commonMovies ratings_df user_id u).length ∧
       (pearsonOpt (pairedArrays ratings_df user_id u).1
         (pairedArrays ratings_df user_id u).2).isSome = true)) ∧
    (∀ u s, (u, s) ∈ similar_users ratings_df user_id →
      pearsonOpt (pairedArrays ratings_df user_id u).1
        (pairedArrays ratings_df user_id u).2 = some s) ∧
    (sortDesc (fun p => p.2) (similar_users ratings_df user_id)).Pairwise
      (fun a b => b.2 ≤ a.2) ∧
    ((sortDesc (fun p => p.2) (similar_users ratings_df user_id)).take 10).length ≤ 10 := by
  refine ⟨?_, ?_, ?_, ?_⟩
  · intro u
    constructor
    · rintro ⟨s, hs⟩
      obtain ⟨hu, hne, hlen, hp⟩ := (similar_users_mem ratings_df user_id u s).mp hs
      exact ⟨hu, hne, hlen, by rw [hp]; rfl⟩
    · rintro ⟨hu, hne, hlen, hsome⟩
      obtain ⟨s, hs⟩ := Option.isSome_iff_exists.mp hsome
      exact ⟨s, (similar_users_mem ratings_df user_id u s).mpr ⟨hu, hne, hlen, hs⟩⟩
  · intro u s hs
    exact ((similar_users_mem ratings_df user_id u s).mp hs).2.2.2
  · exact sortDesc_sorted _ _
  · rw [List.length_take]
    exact min_le_left _ _

/-- Closed witness for C2: user 2 shares 5 common movies with target 1
and has a defined correlation, so is a candidate; user 3 shares only 4
and is skipped. -/
theorem c2_neighbor_selection_witness :
    (∃ s, ((2 : Int), s) ∈ similar_users
      [⟨1, 1, 1⟩, ⟨1, 2, 2⟩, ⟨1, 3, 3⟩, ⟨1, 4, 4⟩, ⟨1, 5, 5⟩,
       ⟨2, 1, 1⟩, ⟨2, 2, 2⟩, ⟨2, 3, 3⟩, ⟨2, 4, 4⟩, ⟨2, 5, 5⟩,
       ⟨3, 1, 1⟩, ⟨3, 2, 2⟩, ⟨3, 3, 3⟩, ⟨3, 4, 4⟩] 1) ∧
    ¬(∃ s, ((3 : Int), s) ∈ similar_users
      [⟨1, 1, 1⟩, ⟨1, 2, 2⟩, ⟨1, 3, 3⟩, ⟨1, 4, 4⟩, ⟨1, 5, 5⟩,
       ⟨2, 1, 1⟩, ⟨2, 2, 2⟩, ⟨2, 3, 3⟩, ⟨2, 4, 4⟩, ⟨2, 5, 5⟩,
       ⟨3, 1, 1⟩, ⟨3, 2, 2⟩, ⟨3, 3, 3⟩, ⟨3, 4, 4⟩] 1) := by
  constructor
  · refine ((c2_neighbor_selection
      [⟨1, 1, 1⟩, ⟨1, 2, 2⟩, ⟨1, 3, 3⟩, ⟨1, 4, 4⟩, ⟨1, 5, 5⟩,
       ⟨2, 1, 1⟩, ⟨2, 2, 2⟩, ⟨2, 3, 3⟩, ⟨2, 4, 4⟩, ⟨2, 5, 5⟩,
       ⟨3, 1, 1⟩, ⟨3, 2, 2⟩, ⟨3, 3, 3⟩, ⟨3, 4, 4⟩] 1).1 2).mpr
      ⟨by decide, by decide, by decide, ?_⟩
    refine (pearsonOpt_isSome_iff _ _).mpr ?_
    have h1 : (pairedArrays
      [⟨1, 1, 1⟩, ⟨1, 2, 2⟩, ⟨1, 3, 3⟩, ⟨1, 4, 4⟩, ⟨1, 5, 5⟩,
       ⟨2, 1, 1⟩, ⟨2, 2, 2⟩, ⟨2, 3, 3⟩, ⟨2, 4, 4⟩, ⟨2, 5, 5⟩,
       ⟨3, 1, 1⟩, ⟨3, 2, 2⟩, ⟨3, 3, 3⟩, ⟨3, 4, 4⟩] 1 2).1 = [1, 2, 3, 4, 5] := by
      decide
    have h2 : (pairedArrays
      [⟨1, 1, 1⟩, ⟨1, 2, 2⟩, ⟨1, 3, 3⟩, ⟨1, 4, 4⟩, ⟨1, 5, 5⟩,
       ⟨2, 1, 1⟩, ⟨2, 2, 2⟩, ⟨2, 3, 3⟩, ⟨2, 4, 4⟩, ⟨2, 5, 5⟩,
       ⟨3, 1, 1⟩, ⟨3, 2, 2⟩, ⟨3, 3, 3⟩, ⟨3, 4, 4⟩] 1 2).2 = [1, 2, 3, 4, 5] := by
      decide
    rw [h1, h2]
    constructor
    · norm_num [List.foldl, List.map, List.length]
    · norm_num [List.foldl, List.map, List.length]
  · intro hex
    have hc := ((c2_neighbor_selection
      [⟨1, 1, 1⟩, ⟨1, 2, 2⟩, ⟨1, 3, 3⟩, ⟨1, 4, 4⟩, ⟨1, 5, 5⟩,
       ⟨2, 1, 1⟩, ⟨2, 2, 2⟩, ⟨2, 3, 3⟩, ⟨2, 4, 4⟩, ⟨2, 5, 5⟩,
       ⟨3, 1, 1⟩, ⟨3, 2, 2⟩, ⟨3, 3, 3⟩, ⟨3, 4, 4⟩] 1).1 3).mp hex
    exact absurd hc.2.2.1 (by decide)

/-! ## Characterization of the candidate_movies aggregation -/

theorem lookupC_eq_none_iff (l : List (Int × ℝ × ℝ)) (m : Int) :
    lookupC l m = none ↔ m ∉ l.map Prod.fst := by
  rw [lookupC, Option.map_eq_none', List.find?_eq_none]
  constructor
  · intro h hm
    obtain ⟨c, hc, hck⟩ := List.mem_map.mp hm
    have hfalse := h c hc
    simp [hck] at hfalse
  · intro h c hc
    simp only [beq_iff_eq]
    exact fun hck => h (hck ▸ List.mem_map_of_mem Prod.fst hc)

theorem lookupC_updateCand_self (l : List (Int × ℝ × ℝ)) (m : Int) (ws w : ℝ) :
    lookupC (updateCand l m ws w) m =
      some (((lookupC l m).getD (0, 0)).1 + ws, ((lookupC l m).getD (0, 0)).2 + w) := by
  induction l with
  | nil => simp [updateCand, lookupC, List.find?]
  | cons c rest ih =>
    obtain ⟨m', a, b⟩ := c
    by_cases h : m' = m
    · subst h
      simp [updateCand, lookupC, List.find?]
    · rw [updateCand, if_neg h]
      have hb : (m' == m) = false := beq_false_of_ne h
      simp only [lookupC, List.find?, hb] at ih ⊢
      exact ih

theorem lookupC_updateCand_ne (l : List (Int × ℝ × ℝ)) (k m : Int) (ws w : ℝ)
    (h : m ≠ k) :
    lookupC (updateCand l k ws w) m = lookupC l m := by
  induction l with
  | nil =>
    simp [updateCand, lookupC, List.find?, beq_false_of_ne (Ne.symm h)]
  | cons c rest ih =>
    obtain ⟨m', a, b⟩ := c
    by_cases hk : m' = k
    · subst hk
      have hb : (m' == m) = false := beq_false_of_ne (Ne.symm h)
      simp [updateCand, lookupC, List.find?, hb]
    · rw [updateCand, if_neg hk]
      by_cases hm : m' = m
      · subst hm
        simp [lookupC, List.find?]
      · have hb : (m' == m) = false := beq_false_of_ne hm
        simp only [lookupC, List.find?, hb] at ih ⊢
        exact ih

theorem mem_keys_updateCand (l : List (Int × ℝ × ℝ)) (k m : Int) (ws w : ℝ) :
    m ∈ (updateCand l k ws w).map Prod.fst ↔
      m ∈ l.map Prod.fst ∨ m = k := by
  induction l with
  | nil => simp [updateCand]
  | cons c rest ih =>
    obtain ⟨m', a, b⟩ := c
    by_cases hk : m' = k
    · subst hk
      rw [updateCand, if_pos rfl]
      simp only [List.map_cons, List.mem_cons]
      tauto
    · rw [updateCand, if_neg hk]
      simp only [List.map_cons, List.mem_cons, ih]
      tauto

theorem nodup_keys_updateCand (l : List (Int × ℝ × ℝ)) (k : Int) (ws w : ℝ)
    (h : (l.map Prod.fst).Nodup) :
    ((updateCand l k ws w).map Prod.fst).Nodup := by
  induction l with
  | nil => simp [updateCand]
  | cons c rest ih =>
    obtain ⟨m', a, b⟩ := c
    rw [List.map_cons, List.nodup_cons] at h
    by_cases hk : m' = k
    · subst hk
      rw [updateCand, if_pos rfl, List.map_cons, List.nodup_cons]
      exact ⟨h.1, h.2⟩
    · rw [updateCand, if_neg hk, List.map_cons, List.nodup_cons]
      refine ⟨?_, ih h.2⟩
      rw [mem_keys_updateCand]
      rintro (hm | rfl)
      · exact h.1 hm
      · exact hk rfl

theorem nodup_keys_foldl_update (cs : List (Int × ℝ × ℝ)) :
    ∀ acc : List (Int × ℝ × ℝ), (acc.map Prod.fst).Nodup →
      (((cs.foldl (fun acc c => updateCand acc c.1 c.2.1 c.2.2) acc)).map Prod.fst).Nodup := by
  induction cs with
  | nil => intro acc h; simpa using h
  | cons c cs ih =>
    intro acc h
    rw [List.foldl_cons]
    exact ih _ (nodup_keys_updateCand acc c.1 c.2.1 c.2.2 h)

theorem mem_keys_foldl_update (cs : List (Int × ℝ × ℝ)) :
    ∀ (acc : List (Int × ℝ × ℝ)) (m : Int),
      m ∈ ((cs.foldl (fun acc c => updateCand acc c.1 c.2.1 c.2.2) acc)).map Prod.fst ↔
        m ∈ acc.map Prod.fst ∨ m ∈ cs.map Prod.fst := by
  induction cs with
  | nil => intro acc m; simp
  | cons c cs ih =>
    intro acc m
    rw [List.foldl_cons, ih, mem_keys_updateCand]
    simp only [List.map_cons, List.mem_cons]
    tauto

theorem getD_lookupC_foldl (cs : List (Int × ℝ × ℝ)) :
    ∀ (acc : List (Int × ℝ × ℝ)) (m : Int),
      (lookupC (cs.foldl (fun acc c => updateCand acc c.1 c.2.1 c.2.2) acc) m).getD (0, 0) =
        (((lookupC acc m).getD (0, 0)).1 +
            ((cs.filter (fun c => c.1 == m)).map (fun c => c.2.1)).sum,
          ((lookupC acc m).getD (0, 0)).2 +
            ((cs.filter (fun c => c.1 == m)).map (fun c => c.2.2)).sum) := by
  induction cs with
  | nil => intro acc m; simp
  | cons c cs ih =>
    obtain ⟨c1, cw, cv⟩ := c
    intro acc m
    rw [List.foldl_cons, ih]
    by_cases hcm : c1 = m
    · subst hcm
      rw [lookupC_updateCand_self, List.filter_cons_of_pos (by simp)]
      simp only [Option.getD_some, List.map_cons, List.sum_cons, Prod.mk.injEq]
      constructor <;> ring
    · rw [lookupC_updateCand_ne acc c1 m cw cv (Ne.symm hcm),
        List.filter_cons_of_neg (by simp [hcm])]

theorem candidateAgg_eq_foldl (ratings_df : List RatingRow) (rated : List Int)
    (neighbors : List (Int × ℝ)) :
    candidateAgg ratings_df rated neighbors =
      (contribsOf ratings_df rated neighbors).foldl
        (fun acc c => updateCand acc c.1 c.2.1 c.2.2) [] := by
  rw [candidateAgg, contribsOf]
  generalize ([] : List (Int × ℝ × ℝ)) = acc
  induction neighbors generalizing acc with
  | nil => rfl
  | cons p ns ih =>
    rw [List.foldl_cons, List.flatMap_cons, List.foldl_append, List.foldl_map]
    exact ih _

theorem mem_highRatedRows (ratings_df : List RatingRow) (rated : List Int)
    (u : Int) (r : RatingRow) :
    r ∈ highRatedRows ratings_df rated u ↔
      (r ∈ ratings_df ∧ r.userId = u ∧ r.movieId ∉ rated ∧ (4 : ℚ) ≤ r.rating) := by
  rw [highRatedRows, List.mem_filter]
  simp [List.contains, List.elem_iff, and_assoc]

theorem mem_keys_contribsOf (ratings_df : List RatingRow) (rated : List Int)
    (neighbors : List (Int × ℝ)) (m : Int) :
    m ∈ (contribsOf ratings_df rated neighbors).map Prod.fst ↔
      (m ∉ rated ∧ ∃ p ∈ neighbors, ∃ r ∈ ratings_df,
        r.userId = p.1 ∧ r.movieId = m ∧ (4 : ℚ) ≤ r.rating) := by
  rw [contribsOf]
  constructor
  · intro hm
    obtain ⟨c, hc, hck⟩ := List.mem_map.mp hm
    obtain ⟨p, hp, hcp⟩ := List.mem_flatMap.mp hc
    obtain ⟨r, hr, hrc⟩ := List.mem_map.mp hcp
    obtain ⟨hrr, hru, hnr, hhi⟩ := (mem_highRatedRows ratings_df rated p.1 r).mp hr
    have hrm : r.movieId = m := by
      rw [← hck, ← hrc]
    exact ⟨hrm ▸ hnr, p, hp, r, hrr, hru, hrm, hhi⟩
  · rintro ⟨hnr, p, hp, r, hrr, hru, hrm, hhi⟩
    apply List.mem_map.mpr
    refine ⟨(r.movieId, (r.rating : ℝ) * p.2, p.2), ?_, hrm⟩
    apply List.mem_flatMap.mpr
    refine ⟨p, hp, List.mem_map.mpr ⟨r, ?_, rfl⟩⟩
    exact (mem_highRatedRows ratings_df rated p.1 r).mpr ⟨hrr, hru, hrm ▸ hnr, hhi⟩

theorem lookupC_eq_of_mem (l : List (Int × ℝ × ℝ)) (c : Int × ℝ × ℝ)
    (hc : c ∈ l) (hnd : (l.map Prod.fst).Nodup) : lookupC l c.1 = some c.2 := by
  rw [lookupC, find?_eq_of_mem_nodupKeys l c hc hnd]
  rfl

theorem nodup_keys_candidateAgg (ratings_df : List RatingRow) (rated : List Int)
    (neighbors : List (Int × ℝ)) :
    ((candidateAgg ratings_df rated neighbors).map Prod.fst).Nodup := by
  rw [candidateAgg_eq_foldl]
  exact nodup_keys_foldl_update _ [] (by simp)

theorem mem_keys_candidateAgg (ratings_df : List RatingRow) (rated : List Int)
    (neighbors : List (Int × ℝ)) (m : Int) :
    m ∈ (candidateAgg ratings_df rated neighbors).map Prod.fst ↔
      m ∈ (contribsOf ratings_df rated neighbors).map Prod.fst := by
  rw [candidateAgg_eq_foldl, mem_keys_foldl_update]
  simp

theorem mem_candidateAgg_val (ratings_df : List RatingRow) (rated : List Int)
    (neighbors : List (Int × ℝ)) (c : Int × ℝ × ℝ)
    (hc : c ∈ candidateAgg ratings_df rated neighbors) :
    c.2.1 = (((contribsOf ratings_df rated neighbors).filter
        (fun d => d.1 == c.1)).map (fun d => d.2.1)).sum ∧
    c.2.2 = (((contribsOf ratings_df rated neighbors).filter
        (fun d => d.1 == c.1)).map (fun d => d.2.2)).sum := by
  have hl := lookupC_eq_of_mem _ c hc (nodup_keys_candidateAgg ratings_df rated neighbors)
  rw [candidateAgg_eq_foldl] at hl
  have hg := getD_lookupC_foldl (contribsOf ratings_df rated neighbors) [] c.1
  rw [hl] at hg
  have hnone : lookupC [] c.1 = none := rfl
  rw [hnone] at hg
  simp only [Option.getD_some, Option.getD_none] at hg
  constructor
  · have := congrArg Prod.fst hg
    simpa using this
  · have := congrArg Prod.snd hg
    simpa using this

theorem mem_predictionsOf (cands : List (Int × ℝ × ℝ)) (m : Int) (p : ℝ) :
    (m, p) ∈ predictionsOf cands ↔
      ∃ ws w, (m, ws, w) ∈ cands ∧ 0 < w ∧ p = ws / w := by
  rw [predictionsOf, List.mem_filterMap]
  constructor
  · rintro ⟨c, hc, hcp⟩
    by_cases h : 0 < c.2.2
    · rw [if_pos h] at hcp
      have hinj := Option.some.inj hcp
      have h1 : c.1 = m := congrArg Prod.fst hinj
      have h2 : c.2.1 / c.2.2 = p := congrArg Prod.snd hinj
      refine ⟨c.2.1, c.2.2, ?_, h, h2.symm⟩
      have heta : (m, c.2.1, c.2.2) = c := by
        rw [← h1]
      rw [heta]
      exact hc
    · rw [if_neg h] at hcp
      cases hcp
  · rintro ⟨ws, w, hmem, hw, rfl⟩
    exact ⟨(m, ws, w), hmem, by rw [if_pos hw]⟩

/-! ## Claim theorem: the collaborative pipeline -/

/-- Claim C1: for a target user present in the log, the candidate set is
exactly the movies not rated by the target that some top-10 neighbor
rated with score at least 4.0; each candidate's accumulated pair is the
similarity-weighted sums over all its contributions; the predictions are
exactly the candidates with positive accumulated weight, scored
`weighted_sum / weight`; and the result is the first `n` predictions by
predicted score descending (a sorted permutation of the predictions),
joined with catalog metadata, any movie absent from the catalog being
omitted (`joinMovies` drops it). -/
theorem c1_collaborative_pipeline (ratings_df : List RatingRow)
    (movies_df : List MovieRow) (user_id : Int) (n : Nat)
    (h : (uniqueUsers ratings_df).contains user_id = true) :
    (∀ m : Int, m ∈ (candsOf ratings_df user_id).map Prod.fst ↔
      (m ∉ ratedMovies ratings_df user_id ∧
       ∃ p ∈ topNeighbors ratings_df user_id, ∃ r ∈ ratings_df,
         r.userId = p.1 ∧ r.movieId = m ∧ (4 : ℚ) ≤ r.rating)) ∧
    (∀ m q, (m, q) ∈ predictionsOf (candsOf ratings_df user_id) ↔
      ∃ ws w, (m, ws, w) ∈ candsOf ratings_df user_id ∧ 0 < w ∧ q = ws / w) ∧
    (∀ c ∈ candsOf ratings_df user_id,
      c.2.1 = (((contribsOf ratings_df (ratedMovies ratings_df user_id)
          (topNeighbors ratings_df user_id)).filter (fun d => d.1 == c.1)).map
            (fun d => d.2.1)).sum ∧
      c.2.2 = (((contribsOf ratings_df (ratedMovies ratings_df user_id)
          (topNeighbors ratings_df user_id)).filter (fun d => d.1 == c.1)).map
            (fun d => d.2.2)).sum) ∧
    collaborative_recommendations ratings_df movies_df user_id n =
      joinMovies movies_df ((sortDesc (fun q => q.2)
        (predictionsOf (candsOf ratings_df user_id))).take n) ∧
    (sortDesc (fun q => q.2) (predictionsOf (candsOf ratings_df user_id))).Pairwise
      (fun a b => b.2 ≤ a.2) ∧
    (sortDesc (fun q => q.2) (predictionsOf (candsOf ratings_df user_id))).Perm
      (predictionsOf (candsOf ratings_df user_id)) := by
  refine ⟨?_, ?_, ?_, ?_, ?_, ?_⟩
  · intro m
    rw [candsOf, mem_keys_candidateAgg, mem_keys_contribsOf]
  · intro m q
    exact mem_predictionsOf (candsOf ratings_df user_id) m q
  · intro c hc
    rw [candsOf] at hc
    exact mem_candidateAgg_val ratings_df (ratedMovies ratings_df user_id)
      (topNeighbors ratings_df user_id) c hc
  · rw [collaborative_recommendations, if_neg (by rw [h]; simp)]
  · exact sortDesc_sorted _ _
  · exact sortDesc_perm _ _

/-- Closed witness for C1: the target user 1 of the C2 witness log. -/
theorem c1_collaborative_pipeline_witness :
    (uniqueUsers
      [⟨1, 1, 1⟩, ⟨1, 2, 2⟩, ⟨1, 3, 3⟩, ⟨1, 4, 4⟩, ⟨1, 5, 5⟩,
       ⟨2, 1, 1⟩, ⟨2, 2, 2⟩, ⟨2, 3, 3⟩, ⟨2, 4, 4⟩, ⟨2, 5, 5⟩,
       ⟨3, 1, 1⟩, ⟨3, 2, 2⟩, ⟨3, 3, 3⟩, ⟨3, 4, 4⟩]).contains 1 = true ∧
    (sortDesc (fun q => q.2) (predictionsOf (candsOf
      [⟨1, 1, 1⟩, ⟨1, 2, 2⟩, ⟨1, 3, 3⟩, ⟨1, 4, 4⟩, ⟨1, 5, 5⟩,
       ⟨2, 1, 1⟩, ⟨2, 2, 2⟩, ⟨2, 3, 3⟩, ⟨2, 4, 4⟩, ⟨2, 5, 5⟩,
       ⟨3, 1, 1⟩, ⟨3, 2, 2⟩, ⟨3, 3, 3⟩, ⟨3, 4, 4⟩] 1))).Perm
      (predictionsOf (candsOf
      [⟨1, 1, 1⟩, ⟨1, 2, 2⟩, ⟨1, 3, 3⟩, ⟨1, 4, 4⟩, ⟨1, 5, 5⟩,
       ⟨2, 1, 1⟩, ⟨2, 2, 2⟩, ⟨2, 3, 3⟩, ⟨2, 4, 4⟩, ⟨2, 5, 5⟩,
       ⟨3, 1, 1⟩, ⟨3, 2, 2⟩, ⟨3, 3, 3⟩, ⟨3, 4, 4⟩] 1)) :=
  ⟨by decide,
    (c1_collaborative_pipeline
      [⟨1, 1, 1⟩, ⟨1, 2, 2⟩, ⟨1, 3, 3⟩, ⟨1, 4, 4⟩, ⟨1, 5, 5⟩,
       ⟨2, 1, 1⟩, ⟨2, 2, 2⟩, ⟨2, 3, 3⟩, ⟨2, 4, 4⟩, ⟨2, 5, 5⟩,
       ⟨3, 1, 1⟩, ⟨3, 2, 2⟩, ⟨3, 3, 3⟩, ⟨3, 4, 4⟩] [] 1 5 (by decide)).2.2.2.2.2⟩

